import Mathlib

/-!
# Verification of a Timsort variant (src/mian.cpp)

This development shallowly embeds the repository's Timsort implementation
(`timsort_detail` in src/mian.cpp) over `List α`, with machine integers
modelled as `Nat` (all relevant quantities — lengths, indices, run lengths —
are nonnegative and far from overflow), and proves/refutes the frozen claims
about it.

The C++ `while` loops are modelled as fuel-indexed structural recursions; the
top-level driver returns `Option (List α)`, yielding `none` only when a loop's
fuel is exhausted.  Fuel sufficiency (the loops terminate) is proved, so the
driver in fact always returns `some`.
-/

namespace Timsort

/-- The caller-supplied predicate `less(a, b)` must be a strict weak ordering:
irreflexive, transitive, with transitive incomparability. -/
structure StrictWeakOrder {α : Type} (comp : α → α → Bool) : Prop where
  irrefl : ∀ a, comp a a = false
  trans : ∀ a b c, comp a b = true → comp b c = true → comp a c = true
  incompTrans : ∀ a b c, comp a b = false → comp b a = false →
    comp b c = false → comp c b = false → comp a c = false

/-- The constant `MIN_MERGE = 32` (src/mian.cpp line 9). -/
def MIN_MERGE : Nat := 32

/-- The loop of `minRunLength` (src/mian.cpp lines 12-19):
`while (n >= MIN_MERGE) { r |= (n & 1); n >>= 1; } return n + r;`,
structurally recursive on a fuel argument (the loop halves `n`, so any
`fuel ≥ n` reaches the natural exit; the fuel-0 fallback coincides with the
loop-exit expression). -/
def minRunAux : Nat → Nat → Nat → Nat
  | 0, n, r => n + r
  | fuel + 1, n, r =>
    if MIN_MERGE ≤ n then minRunAux fuel (n / 2) (r ||| n % 2) else n + r

/-- The function `minRunLength(n)` (src/mian.cpp lines 12-19). -/
def minRunLength (n : Nat) : Nat := minRunAux n n 0

/-- Number of iterations (right shifts) performed by the `minRunLength` loop. -/
def minRunShiftsAux : Nat → Nat → Nat
  | 0, _ => 0
  | fuel + 1, n =>
    if MIN_MERGE ≤ n then minRunShiftsAux fuel (n / 2) + 1 else 0

/-- The number of right shifts `minRunLength` performs on input `n`. -/
def minRunShifts (n : Nat) : Nat := minRunShiftsAux n n

/-- One step of `binaryInsertionSort` (src/mian.cpp lines 24-32): locate the
insertion point of `key` in the already-sorted prefix with
`std::upper_bound(left, it, key, comp)` — the first position whose element
`e` satisfies `comp key e` — and insert `key` there, shifting the rest right. -/
def insertUB {α : Type} (comp : α → α → Bool) (key : α) : List α → List α
  | [] => [key]
  | x :: xs => if comp key x then key :: x :: xs else x :: insertUB comp key xs

/-- The function `binaryInsertionSort(left, right, comp)` (src/mian.cpp lines 22-34): for
each element after the first, insert it into the sorted prefix at its
upper-bound position. -/
def binaryInsertionSort {α : Type} (comp : α → α → Bool) : List α → List α
  | [] => []
  | x :: xs => xs.foldl (fun acc key => insertUB comp key acc) [x]

/-- The interleaving loop of `mergeRuns` (src/mian.cpp lines 58-69):
`while (left != leftEnd && right != rightEnd) { if (comp(*left, *right)) take
left else take right }`, then the remaining left elements are appended (the
remaining right elements are already in place).  Fuel-indexed; any
`fuel ≥ ls.length + rs.length` reaches the natural exit. -/
def mergeLoop {α : Type} (comp : α → α → Bool) : Nat → List α → List α → List α
  | _, [], rs => rs
  | _, a :: ls, [] => a :: ls
  | 0, a :: ls, b :: rs => a :: ls ++ b :: rs
  | fuel + 1, a :: ls, b :: rs =>
    if comp a b then a :: mergeLoop comp fuel ls (b :: rs)
    else b :: mergeLoop comp fuel (a :: ls) rs

/-- The function `mergeRuns(start, mid, end, comp, buffer)` (src/mian.cpp lines 37-71) on
the two adjacent sorted ranges, presented as the copied-out left run (the
buffer) and the right run. -/
def mergeRuns {α : Type} (comp : α → α → Bool) (left right : List α) : List α :=
  mergeLoop comp (left.length + right.length) left right

/-- The descending-run loop (src/mian.cpp lines 98-100): starting from
`prev`, count how many further elements each satisfy
`comp(element, predecessor)`. -/
def descExtend {α : Type} (comp : α → α → Bool) : α → List α → Nat
  | _, [] => 0
  | prev, x :: xs => if comp x prev then descExtend comp x xs + 1 else 0

/-- The ascending-run loop (src/mian.cpp lines 104-106): starting from
`prev`, count how many further elements each satisfy
`!comp(element, predecessor)`. -/
def ascExtend {α : Type} (comp : α → α → Bool) : α → List α → Nat
  | _, [] => 0
  | prev, x :: xs => if comp x prev then 0 else ascExtend comp x xs + 1

/-- Run detection (src/mian.cpp lines 92-108) on the suffix of the sequence
beginning at `start`: returns the detected run length and whether the run was
descending (and hence must be reversed).  `runLen = 1` when `start+1 ≥ n`. -/
def countRun {α : Type} (comp : α → α → Bool) : List α → Nat × Bool
  | [] => (1, false)
  | [_] => (1, false)
  | a :: b :: rest =>
    if comp b a then (descExtend comp a (b :: rest) + 1, true)
    else (ascExtend comp a (b :: rest) + 1, false)

/-- In-place update of the range `[s, s+len)` of `l` with the `len` elements
of `m` (model of the mutations `std::reverse`, `binaryInsertionSort`, and
`mergeRuns` perform on an iterator range). -/
def splice {α : Type} (l : List α) (s len : Nat) (m : List α) : List α :=
  l.take s ++ m ++ l.drop (s + len)

/-- The record `struct Run` with fields `start` and `length` (src/mian.cpp lines 73-76). -/
structure Run where
  start : Nat
  length : Nat
deriving DecidableEq

/-- The Run Detector (src/mian.cpp lines 92-108): detect the run at `start`,
and when it is descending reverse that range in place
(`std::reverse(first + start, first + start + runLen)`).  Returns the updated
sequence and the detected `runLen`. -/
def detectRun {α : Type} (comp : α → α → Bool) (l : List α) (start : Nat) :
    List α × Nat :=
  let sfx := l.drop start
  let det := countRun comp sfx
  if det.2 then (splice l start det.1 ((sfx.take det.1).reverse), det.1)
  else (l, det.1)

/-- The loop body at src/mian.cpp lines 92-115: detect the run at `start`
(reversing it if descending), and if it is shorter than `minRun` extend it to
`force = min(minRun, n - start)` by binary-insertion-sorting that whole range.
Returns the updated sequence and the final `runLen`. -/
def detectAndExtend {α : Type} (comp : α → α → Bool) (minRun : Nat)
    (l : List α) (start : Nat) : List α × Nat :=
  let dr := detectRun comp l start
  if dr.2 < minRun then
    let force := min minRun (l.length - start)
    (splice dr.1 start force (binaryInsertionSort comp ((dr.1.drop start).take force)),
      force)
  else dr

/-- The call `mergeRuns(first + run1.start, first + run1.start + run1.length,
first + run1.start + run1.length + run2.length, comp, buffer)` (src/mian.cpp
lines 146-147): merge the adjacent ranges `[s, s+len1)` and
`[s+len1, s+len1+len2)` in place. -/
def mergeAt {α : Type} (comp : α → α → Bool) (l : List α) (s len1 len2 : Nat) :
    List α :=
  splice l s (len1 + len2)
    (mergeRuns comp ((l.drop s).take len1) ((l.drop (s + len1)).take len2))

/-- The merge condition of the post-push loop (src/mian.cpp lines 121-139),
for a run stack held top-first: merge when at least 3 entries exist and
`A ≤ B + C` (third-from-top vs the other two), or at least 2 exist and
`B ≤ C`. -/
def shouldMerge (stack : List Run) : Bool :=
  match stack with
  | c :: b :: rest =>
    (match rest with
     | a :: _ => decide (a.length ≤ b.length + c.length)
     | [] => false) || decide (b.length ≤ c.length)
  | _ => false

/-- The post-push merge loop (src/mian.cpp lines 121-154): while the stack has
more than one entry and the balance invariant is violated at the top, pop the
top two runs, merge their ranges, and push the combined run.  Fuel-indexed;
`fuel ≥ stack.length` reaches the natural exit. -/
def mergeCollapse {α : Type} (comp : α → α → Bool) :
    Nat → List α → List Run → List α × List Run
  | 0, l, stack => (l, stack)
  | fuel + 1, l, stack =>
    match stack with
    | c :: b :: rest =>
      if shouldMerge (c :: b :: rest) then
        mergeCollapse comp fuel (mergeAt comp l b.start b.length c.length)
          (⟨b.start, b.length + c.length⟩ :: rest)
      else (l, c :: b :: rest)
    | _ => (l, stack)

/-- The final drain loop (src/mian.cpp lines 160-170): while more than one run
remains, pop the top two, merge, push the combined run.  Fuel-indexed;
`fuel ≥ stack.length` reaches the natural exit. -/
def finalMerge {α : Type} (comp : α → α → Bool) :
    Nat → List α → List Run → List α × List Run
  | 0, l, stack => (l, stack)
  | fuel + 1, l, stack =>
    match stack with
    | c :: b :: rest =>
      finalMerge comp fuel (mergeAt comp l b.start b.length c.length)
        (⟨b.start, b.length + c.length⟩ :: rest)
    | _ => (l, stack)

/-- The scan loop (src/mian.cpp lines 90-157): `while (start < n)`, detect and
possibly extend the run at `start`, push it (the run stack is held top-first),
run the merge-collapse loop, and advance `start` by `runLen`.  Fuel-indexed:
each iteration advances `start` by at least 1, so `fuel ≥ n` reaches the
natural exit; `none` is returned on fuel exhaustion. -/
def scanLoop {α : Type} (comp : α → α → Bool) (minRun : Nat) :
    Nat → List α → List Run → Nat → Option (List α × List Run)
  | 0, l, stack, start =>
    if start < l.length then none else some (l, stack)
  | fuel + 1, l, stack, start =>
    if start < l.length then
      let de := detectAndExtend comp minRun l start
      let cs := mergeCollapse comp (stack.length + 1) de.1
        (⟨start, de.2⟩ :: stack)
      scanLoop comp minRun fuel cs.1 cs.2 (start + de.2)
    else some (l, stack)

/-- The driver `timsortImpl(first, last, comp)` (src/mian.cpp lines 79-171): return
immediately when `n ≤ 1`; otherwise compute `minRun`, run the scan loop from
`start = 0` with an empty run stack, then drain the stack with the final merge
loop.  The result is the final state of the sequence. -/
def timsortImpl {α : Type} (comp : α → α → Bool) (l : List α) : Option (List α) :=
  let n := l.length
  if n ≤ 1 then some l
  else
    let minRun := minRunLength n
    (scanLoop comp minRun n l [] 0).map
      (fun ls => (finalMerge comp ls.2.length ls.1 ls.2).1)

/-- The sequence is non-decreasing under `comp`: the predicate holds of no
element over any earlier element. -/
def sortedLe {α : Type} (comp : α → α → Bool) (l : List α) : Prop :=
  List.Pairwise (fun a b => comp b a = false) l

/-- The stack (held top-first) covers exactly `[0, e)` with contiguous,
disjoint runs: the top run ends at `e`, each deeper run ends where the run
above it starts, and the bottom run starts at 0. -/
def stackWF : List Run → Nat → Prop
  | [], e => e = 0
  | r :: rest, e => r.start + r.length = e ∧ stackWF rest r.start

/-- Every run's slice of the sequence is sorted. -/
def runsSorted {α : Type} (comp : α → α → Bool) (l : List α) (st : List Run) : Prop :=
  ∀ r ∈ st, sortedLe comp ((l.drop r.start).take r.length)

/-! ### Comparison-counting instrumentation

The same algorithm with every invocation of the caller's predicate counted,
so that "the predicate is never invoked" on degenerate inputs is a provable
statement.  `std::upper_bound`'s internal binary search is modelled with the
libstdc++ scheme (halve the candidate range, one comparison per iteration);
its exact probe count is library-defined and is irrelevant here, since the
claims about counts only concern inputs on which the sort returns before any
comparison. -/

/-- Counting model of `std::upper_bound` over the prefix `l`: returns the
insertion position and the number of comparisons performed. -/
def upperBoundSearch {α : Type} (comp : α → α → Bool) (val : α) (l : List α)
    (first len : Nat) : Nat × Nat :=
  if 0 < len then
    let half := len / 2
    if comp val (l.getD (first + half) val) then
      let r := upperBoundSearch comp val l first half
      (r.1, r.2 + 1)
    else
      let r := upperBoundSearch comp val l (first + half + 1) (len - half - 1)
      (r.1, r.2 + 1)
  else (first, 0)
termination_by len
decreasing_by
  · omega
  · omega

/-- Insertion of `key` at a given position (the `std::move_backward` step of
`binaryInsertionSort`). -/
def insertAt {α : Type} (key : α) : Nat → List α → List α
  | _, [] => [key]
  | 0, x :: xs => key :: x :: xs
  | n + 1, x :: xs => x :: insertAt key n xs

/-- The function `binaryInsertionSort` with comparison counting. -/
def binaryInsertionSortCount {α : Type} (comp : α → α → Bool) :
    List α → List α × Nat
  | [] => ([], 0)
  | x :: xs =>
    xs.foldl
      (fun acc key =>
        let r := upperBoundSearch comp key acc.1 0 acc.1.length
        (insertAt key r.1 acc.1, acc.2 + r.2))
      ([x], 0)

/-- The `mergeRuns` interleaving loop with comparison counting. -/
def mergeLoopCount {α : Type} (comp : α → α → Bool) :
    Nat → List α → List α → List α × Nat
  | _, [], rs => (rs, 0)
  | _, a :: ls, [] => (a :: ls, 0)
  | 0, a :: ls, b :: rs => (a :: ls ++ b :: rs, 0)
  | fuel + 1, a :: ls, b :: rs =>
    if comp a b then
      let r := mergeLoopCount comp fuel ls (b :: rs)
      (a :: r.1, r.2 + 1)
    else
      let r := mergeLoopCount comp fuel (a :: ls) rs
      (b :: r.1, r.2 + 1)

/-- The function `mergeRuns` with comparison counting. -/
def mergeRunsCount {α : Type} (comp : α → α → Bool) (left right : List α) :
    List α × Nat :=
  mergeLoopCount comp (left.length + right.length) left right

/-- The descending-run loop with comparison counting (the loop guard performs
one comparison per iteration, including the failing one, but none when the
range is exhausted first). -/
def descExtendCount {α : Type} (comp : α → α → Bool) : α → List α → Nat × Nat
  | _, [] => (0, 0)
  | prev, x :: xs =>
    if comp x prev then
      let r := descExtendCount comp x xs
      (r.1 + 1, r.2 + 1)
    else (0, 1)

/-- The ascending-run loop with comparison counting. -/
def ascExtendCount {α : Type} (comp : α → α → Bool) : α → List α → Nat × Nat
  | _, [] => (0, 0)
  | prev, x :: xs =>
    if comp x prev then (0, 1)
    else
      let r := ascExtendCount comp x xs
      (r.1 + 1, r.2 + 1)

/-- Run detection with comparison counting: one comparison decides the
direction, then the corresponding loop re-examines the same pair. -/
def countRunCount {α : Type} (comp : α → α → Bool) : List α → Nat × Bool × Nat
  | [] => (1, false, 0)
  | [_] => (1, false, 0)
  | a :: b :: rest =>
    if comp b a then
      let r := descExtendCount comp a (b :: rest)
      (r.1 + 1, true, r.2 + 1)
    else
      let r := ascExtendCount comp a (b :: rest)
      (r.1 + 1, false, r.2 + 1)

/-- The Run Detector with comparison counting. -/
def detectRunCount {α : Type} (comp : α → α → Bool) (l : List α) (start : Nat) :
    List α × Nat × Nat :=
  let sfx := l.drop start
  let det := countRunCount comp sfx
  if det.2.1 then (splice l start det.1 ((sfx.take det.1).reverse), det.1, det.2.2)
  else (l, det.1, det.2.2)

/-- Detection plus minimum-run extension with comparison counting. -/
def detectAndExtendCount {α : Type} (comp : α → α → Bool) (minRun : Nat)
    (l : List α) (start : Nat) : List α × Nat × Nat :=
  let dr := detectRunCount comp l start
  if dr.2.1 < minRun then
    let force := min minRun (l.length - start)
    let bis := binaryInsertionSortCount comp ((dr.1.drop start).take force)
    (splice dr.1 start force bis.1, force, dr.2.2 + bis.2)
  else dr

/-- The function `mergeRuns` on adjacent ranges with comparison counting. -/
def mergeAtCount {α : Type} (comp : α → α → Bool) (l : List α)
    (s len1 len2 : Nat) : List α × Nat :=
  let m := mergeRunsCount comp ((l.drop s).take len1) ((l.drop (s + len1)).take len2)
  (splice l s (len1 + len2) m.1, m.2)

/-- The post-push merge loop with comparison counting. -/
def mergeCollapseCount {α : Type} (comp : α → α → Bool) :
    Nat → List α → List Run → Nat → List α × List Run × Nat
  | 0, l, stack, cnt => (l, stack, cnt)
  | fuel + 1, l, stack, cnt =>
    match stack with
    | c :: b :: rest =>
      if shouldMerge (c :: b :: rest) then
        let m := mergeAtCount comp l b.start b.length c.length
        mergeCollapseCount comp fuel m.1
          (Run.mk b.start (b.length + c.length) :: rest) (cnt + m.2)
      else (l, c :: b :: rest, cnt)
    | _ => (l, stack, cnt)

/-- The final drain loop with comparison counting. -/
def finalMergeCount {α : Type} (comp : α → α → Bool) :
    Nat → List α → List Run → Nat → List α × List Run × Nat
  | 0, l, stack, cnt => (l, stack, cnt)
  | fuel + 1, l, stack, cnt =>
    match stack with
    | c :: b :: rest =>
      let m := mergeAtCount comp l b.start b.length c.length
      finalMergeCount comp fuel m.1
        (Run.mk b.start (b.length + c.length) :: rest) (cnt + m.2)
    | _ => (l, stack, cnt)

/-- The scan loop with comparison counting. -/
def scanLoopCount {α : Type} (comp : α → α → Bool) (minRun : Nat) :
    Nat → List α → List Run → Nat → Nat → Option (List α × List Run × Nat)
  | 0, l, stack, start, cnt =>
    if start < l.length then none else some (l, stack, cnt)
  | fuel + 1, l, stack, start, cnt =>
    if start < l.length then
      let de := detectAndExtendCount comp minRun l start
      let cs := mergeCollapseCount comp (stack.length + 1) de.1
        (Run.mk start de.2.1 :: stack) 0
      scanLoopCount comp minRun fuel cs.1 cs.2.1 (start + de.2.1)
        (cnt + de.2.2 + cs.2.2)
    else some (l, stack, cnt)

/-- The driver `timsortImpl` with comparison counting: returns the final sequence and
the total number of predicate invocations. -/
def timsortImplCount {α : Type} (comp : α → α → Bool) (l : List α) :
    Option (List α × Nat) :=
  let n := l.length
  if n ≤ 1 then some (l, 0)
  else
    let minRun := minRunLength n
    (scanLoopCount comp minRun n l [] 0 0).map
      (fun p =>
        let fm := finalMergeCount comp p.2.1.length p.1 p.2.1 p.2.2
        (fm.1, fm.2.2))

/-! ### Concrete instances used by the refutations and witnesses -/

/-- Natural-number `<` as a Bool-valued comparison (the default
`std::less<int>` on nonnegative values). -/
def natLt : Nat → Nat → Bool := fun a b => decide (a < b)

/-- Comparison on (key, tag) pairs that looks only at the key — the standard
device for observing stability: pairs with equal keys are incomparable yet
distinguishable. -/
def keyLt : Nat × Nat → Nat × Nat → Bool := fun x y => decide (x.1 < y.1)

/-- A 33-element input (length above MIN_MERGE, so the scan produces two runs
that the drain loop merges): keys 0..16 tagged 0..16, then keys 5..20 tagged
17..32.  Keys 5..16 occur once in each run. -/
def tieInput : List (Nat × Nat) :=
  [(0, 0), (1, 1), (2, 2), (3, 3), (4, 4), (5, 5), (6, 6), (7, 7), (8, 8),
   (9, 9), (10, 10), (11, 11), (12, 12), (13, 13), (14, 14), (15, 15),
   (16, 16), (5, 17), (6, 18), (7, 19), (8, 20), (9, 21), (10, 22), (11, 23),
   (12, 24), (13, 25), (14, 26), (15, 27), (16, 28), (17, 29), (18, 30),
   (19, 31), (20, 32)]

/-- What `timsortImpl keyLt tieInput` in fact computes: on every tied key the
second-run element (tag ≥ 17) lands before the first-run element. -/
def tieOutput : List (Nat × Nat) :=
  [(0, 0), (1, 1), (2, 2), (3, 3), (4, 4), (5, 17), (5, 5), (6, 18), (6, 6),
   (7, 19), (7, 7), (8, 20), (8, 8), (9, 21), (9, 9), (10, 22), (10, 10),
   (11, 23), (11, 11), (12, 24), (12, 12), (13, 25), (13, 13), (14, 26),
   (14, 14), (15, 27), (15, 15), (16, 28), (16, 16), (17, 29), (18, 30),
   (19, 31), (20, 32)]

/-! ## Consequences of the strict-weak-order axioms -/

theorem StrictWeakOrder.asymm {α : Type} {comp : α → α → Bool}
    (h : StrictWeakOrder comp) {a b : α} (hab : comp a b = true) :
    comp b a = false := by
  by_contra hba
  have hba' : comp b a = true := by simpa using hba
  have := h.trans a b a hab hba'
  simp [h.irrefl a] at this

theorem StrictWeakOrder.leTrans {α : Type} {comp : α → α → Bool}
    (h : StrictWeakOrder comp) {a b c : α}
    (hba : comp b a = false) (hcb : comp c b = false) : comp c a = false := by
  by_contra hca'
  have hca : comp c a = true := by simpa using hca'
  cases hbc : comp b c with
  | true => exact absurd (h.trans b c a hbc hca) (by simp [hba])
  | false =>
    cases hab : comp a b with
    | true => exact absurd (h.trans c a b hca hab) (by simp [hcb])
    | false => exact absurd (h.incompTrans c b a hcb hbc hba hab) (by simp [hca])

theorem sortedLe_chain' {α : Type} {comp : α → α → Bool} (h : StrictWeakOrder comp)
    {l : List α} :
    sortedLe comp l ↔ List.Chain' (fun a b => comp b a = false) l := by
  haveI : IsTrans α (fun a b => comp b a = false) :=
    ⟨fun _ _ _ hab hbc => h.leTrans hab hbc⟩
  exact (List.chain'_iff_pairwise).symm

/-! ## Splice lemmas: in-place range updates -/

theorem splice_length {α : Type} {l m : List α} {s len : Nat}
    (hb : s + len ≤ l.length) (hm : m.length = len) :
    (splice l s len m).length = l.length := by
  simp [splice, hm]
  omega

theorem splice_take {α : Type} {l m : List α} {s len : Nat}
    (hb : s + len ≤ l.length) :
    (splice l s len m).take s = l.take s := by
  unfold splice
  rw [List.append_assoc, List.take_left']
  simp; omega

theorem splice_drop {α : Type} {l m : List α} {s len : Nat}
    (hb : s + len ≤ l.length) (hm : m.length = len) :
    (splice l s len m).drop (s + len) = l.drop (s + len) := by
  unfold splice
  rw [List.drop_left' (show (List.take s l ++ m).length = s + len by simp [hm]; omega)]

theorem splice_middle {α : Type} {l m : List α} {s len : Nat}
    (hb : s + len ≤ l.length) (hm : m.length = len) :
    ((splice l s len m).drop s).take len = m := by
  unfold splice
  rw [List.append_assoc, List.drop_left' (by simp; omega), List.take_left' hm]

theorem splice_perm {α : Type} {l m : List α} {s len : Nat}
    (hp : m.Perm ((l.drop s).take len)) :
    (splice l s len m).Perm l := by
  unfold splice
  rw [List.append_assoc]
  conv_rhs => rw [← List.take_append_drop s l]
  refine List.Perm.append_left _ ?_
  have hd : l.drop (s + len) = ((l.drop s).drop len) := by
    rw [List.drop_drop]
  rw [hd]
  conv_rhs => rw [← List.take_append_drop len (l.drop s)]
  exact hp.append_right _

theorem take_eq_imp_slice_eq {α : Type} {l1 l2 : List α} {s a b : Nat}
    (h : l1.take s = l2.take s) (hab : a + b ≤ s) :
    (l1.drop a).take b = (l2.drop a).take b := by
  have h1 : l1.take (a + b) = l2.take (a + b) := by
    have e1 : l1.take (a + b) = (l1.take s).take (a + b) := by
      rw [List.take_take, Nat.min_eq_left hab]
    have e2 : l2.take (a + b) = (l2.take s).take (a + b) := by
      rw [List.take_take, Nat.min_eq_left hab]
    rw [e1, e2, h]
  rw [List.take_drop, List.take_drop, h1]

/-! ## Merge loop lemmas -/

theorem mergeLoop_length {α : Type} (comp : α → α → Bool) :
    ∀ (fuel : Nat) (ls rs : List α),
      (mergeLoop comp fuel ls rs).length = ls.length + rs.length := by
  intro fuel
  induction fuel with
  | zero =>
    intro ls rs
    cases ls with
    | nil => simp [mergeLoop]
    | cons a ls =>
      cases rs with
      | nil => simp [mergeLoop]
      | cons b rs => simp [mergeLoop]; omega
  | succ fuel ih =>
    intro ls rs
    cases ls with
    | nil => simp [mergeLoop]
    | cons a ls =>
      cases rs with
      | nil => simp [mergeLoop]
      | cons b rs =>
        by_cases hc : comp a b = true
        · simp [mergeLoop, hc, ih]; omega
        · simp only [Bool.not_eq_true] at hc
          simp [mergeLoop, hc, ih]; omega

theorem mergeLoop_perm {α : Type} (comp : α → α → Bool) :
    ∀ (fuel : Nat) (ls rs : List α),
      (mergeLoop comp fuel ls rs).Perm (ls ++ rs) := by
  intro fuel
  induction fuel with
  | zero =>
    intro ls rs
    cases ls with
    | nil => simp [mergeLoop]
    | cons a ls =>
      cases rs with
      | nil => simp [mergeLoop]
      | cons b rs => simp [mergeLoop]
  | succ fuel ih =>
    intro ls rs
    cases ls with
    | nil => simp [mergeLoop]
    | cons a ls =>
      cases rs with
      | nil => simp [mergeLoop]
      | cons b rs =>
        by_cases hc : comp a b = true
        · simpa [mergeLoop, hc] using (ih ls (b :: rs)).cons a
        · simp only [Bool.not_eq_true] at hc
          simp only [mergeLoop, hc, if_false, Bool.false_eq_true]
          refine ((ih (a :: ls) rs).cons b).trans ?_
          exact (List.perm_middle).symm

theorem mergeLoop_mem {α : Type} (comp : α → α → Bool) {fuel : Nat}
    {ls rs : List α} {x : α} (hx : x ∈ mergeLoop comp fuel ls rs) :
    x ∈ ls ∨ x ∈ rs := by
  have := (mergeLoop_perm comp fuel ls rs).mem_iff.mp hx
  simpa using this

theorem mergeLoop_sorted {α : Type} {comp : α → α → Bool}
    (h : StrictWeakOrder comp) :
    ∀ (fuel : Nat) (ls rs : List α), ls.length + rs.length ≤ fuel →
      sortedLe comp ls → sortedLe comp rs →
      sortedLe comp (mergeLoop comp fuel ls rs) := by
  intro fuel
  induction fuel with
  | zero =>
    intro ls rs hlen hls hrs
    cases ls with
    | nil => simpa [mergeLoop] using hrs
    | cons a ls =>
      cases rs with
      | nil => simpa [mergeLoop] using hls
      | cons b rs => simp at hlen
  | succ fuel ih =>
    intro ls rs hlen hls hrs
    cases ls with
    | nil => simpa [mergeLoop] using hrs
    | cons a ls =>
      cases rs with
      | nil => simpa [mergeLoop] using hls
      | cons b rs =>
        rw [sortedLe, List.pairwise_cons] at hls hrs
        by_cases hc : comp a b = true
        · simp only [mergeLoop, hc, if_true]
          rw [sortedLe, List.pairwise_cons]
          constructor
          · intro x hx
            rcases mergeLoop_mem comp hx with hxl | hxr
            · exact hls.1 x hxl
            · rcases List.mem_cons.mp hxr with hxb | hxrs
              · subst hxb; exact h.asymm hc
              · exact h.leTrans (h.asymm hc) (hrs.1 x hxrs)
          · refine ih ls (b :: rs) (by simp at hlen ⊢; omega) hls.2 ?_
            rw [sortedLe, List.pairwise_cons]; exact hrs
        · simp only [Bool.not_eq_true] at hc
          simp only [mergeLoop, hc, Bool.false_eq_true, if_false]
          rw [sortedLe, List.pairwise_cons]
          constructor
          · intro x hx
            rcases mergeLoop_mem comp hx with hxl | hxr
            · rcases List.mem_cons.mp hxl with hxa | hxls
              · subst hxa; exact hc
              · exact h.leTrans hc (hls.1 x hxls)
            · exact hrs.1 x hxr
          · refine ih (a :: ls) rs (by simp at hlen ⊢; omega) ?_ hrs.2
            rw [sortedLe, List.pairwise_cons]; exact hls

theorem mergeRuns_length {α : Type} (comp : α → α → Bool) (left right : List α) :
    (mergeRuns comp left right).length = left.length + right.length :=
  mergeLoop_length comp _ left right

theorem mergeRuns_perm {α : Type} (comp : α → α → Bool) (left right : List α) :
    (mergeRuns comp left right).Perm (left ++ right) :=
  mergeLoop_perm comp _ left right

theorem mergeRuns_sorted {α : Type} {comp : α → α → Bool}
    (h : StrictWeakOrder comp) {left right : List α}
    (hl : sortedLe comp left) (hr : sortedLe comp right) :
    sortedLe comp (mergeRuns comp left right) :=
  mergeLoop_sorted h _ left right (Nat.le_refl _) hl hr

/-! ## Binary insertion sort lemmas -/

theorem insertUB_perm {α : Type} (comp : α → α → Bool) (key : α) :
    ∀ l : List α, (insertUB comp key l).Perm (key :: l) := by
  intro l
  induction l with
  | nil => simp [insertUB]
  | cons x xs ih =>
    by_cases hc : comp key x = true
    · simp [insertUB, hc]
    · simp only [Bool.not_eq_true] at hc
      simp only [insertUB, hc, Bool.false_eq_true, if_false]
      exact (ih.cons x).trans (List.Perm.swap key x xs)

theorem insertUB_sorted {α : Type} {comp : α → α → Bool}
    (h : StrictWeakOrder comp) (key : α) :
    ∀ l : List α, sortedLe comp l → sortedLe comp (insertUB comp key l) := by
  intro l
  induction l with
  | nil => simp [insertUB, sortedLe]
  | cons x xs ih =>
    intro hs
    rw [sortedLe, List.pairwise_cons] at hs
    by_cases hc : comp key x = true
    · simp only [insertUB, hc, if_true]
      rw [sortedLe, List.pairwise_cons]
      refine ⟨?_, ?_⟩
      · intro y hy
        rcases List.mem_cons.mp hy with hyx | hyxs
        · subst hyx; exact h.asymm hc
        · exact h.leTrans (h.asymm hc) (hs.1 y hyxs)
      · rw [List.pairwise_cons]; exact hs
    · simp only [Bool.not_eq_true] at hc
      simp only [insertUB, hc, Bool.false_eq_true, if_false]
      rw [sortedLe, List.pairwise_cons]
      refine ⟨?_, ih hs.2⟩
      intro y hy
      rcases List.mem_cons.mp ((insertUB_perm comp key xs).mem_iff.mp hy) with hyk | hyxs
      · subst hyk; exact hc
      · exact hs.1 y hyxs

theorem binaryInsertionSort_perm {α : Type} (comp : α → α → Bool) :
    ∀ l : List α, (binaryInsertionSort comp l).Perm l := by
  have aux : ∀ (xs acc : List α),
      (xs.foldl (fun acc key => insertUB comp key acc) acc).Perm (acc ++ xs) := by
    intro xs
    induction xs with
    | nil => simp
    | cons key xs ih =>
      intro acc
      refine (ih (insertUB comp key acc)).trans ?_
      refine (((insertUB_perm comp key acc).append_right xs).trans ?_)
      exact List.perm_middle.symm
  intro l
  cases l with
  | nil => simp [binaryInsertionSort]
  | cons x xs => simpa [binaryInsertionSort] using aux xs [x]

theorem binaryInsertionSort_sorted {α : Type} {comp : α → α → Bool}
    (h : StrictWeakOrder comp) :
    ∀ l : List α, sortedLe comp (binaryInsertionSort comp l) := by
  have aux : ∀ (xs acc : List α), sortedLe comp acc →
      sortedLe comp (xs.foldl (fun acc key => insertUB comp key acc) acc) := by
    intro xs
    induction xs with
    | nil => intro acc hacc; simpa using hacc
    | cons key xs ih =>
      intro acc hacc
      exact ih _ (insertUB_sorted h key acc hacc)
  intro l
  cases l with
  | nil => simp [binaryInsertionSort, sortedLe]
  | cons x xs =>
    refine aux xs [x] ?_
    simp [sortedLe]

theorem binaryInsertionSort_length {α : Type} (comp : α → α → Bool) (l : List α) :
    (binaryInsertionSort comp l).length = l.length :=
  (binaryInsertionSort_perm comp l).length_eq

/-! ## Run detection lemmas -/

theorem descExtend_le_length {α : Type} (comp : α → α → Bool) :
    ∀ (prev : α) (xs : List α), descExtend comp prev xs ≤ xs.length := by
  intro prev xs
  induction xs generalizing prev with
  | nil => simp [descExtend]
  | cons x xs ih =>
    by_cases hc : comp x prev = true
    · simp only [descExtend, hc, if_true, List.length_cons]
      exact Nat.succ_le_succ (ih x)
    · simp only [Bool.not_eq_true] at hc
      simp [descExtend, hc]

theorem ascExtend_le_length {α : Type} (comp : α → α → Bool) :
    ∀ (prev : α) (xs : List α), ascExtend comp prev xs ≤ xs.length := by
  intro prev xs
  induction xs generalizing prev with
  | nil => simp [ascExtend]
  | cons x xs ih =>
    by_cases hc : comp x prev = true
    · simp [ascExtend, hc]
    · simp only [Bool.not_eq_true] at hc
      simp only [ascExtend, hc, Bool.false_eq_true, if_false, List.length_cons]
      exact Nat.succ_le_succ (ih x)

theorem ascExtend_chain {α : Type} (comp : α → α → Bool) :
    ∀ (prev : α) (xs : List α),
      List.Chain' (fun a b => comp b a = false)
        (prev :: xs.take (ascExtend comp prev xs)) := by
  intro prev xs
  induction xs generalizing prev with
  | nil => simp [ascExtend]
  | cons x xs ih =>
    by_cases hc : comp x prev = true
    · simp [ascExtend, hc]
    · simp only [Bool.not_eq_true] at hc
      simp only [ascExtend, hc, Bool.false_eq_true, if_false, List.take_succ_cons]
      exact List.Chain'.cons hc (ih x)

theorem descExtend_chain {α : Type} (comp : α → α → Bool) :
    ∀ (prev : α) (xs : List α),
      List.Chain' (fun a b => comp b a = true)
        (prev :: xs.take (descExtend comp prev xs)) := by
  intro prev xs
  induction xs generalizing prev with
  | nil => simp [descExtend]
  | cons x xs ih =>
    by_cases hc : comp x prev = true
    · simp only [descExtend, hc, if_true, List.take_succ_cons]
      exact List.Chain'.cons hc (ih x)
    · simp only [Bool.not_eq_true] at hc
      simp [descExtend, hc]

theorem ascExtend_full {α : Type} (comp : α → α → Bool) :
    ∀ (prev : α) (xs : List α),
      List.Chain' (fun a b => comp b a = false) (prev :: xs) →
      ascExtend comp prev xs = xs.length := by
  intro prev xs
  induction xs generalizing prev with
  | nil => simp [ascExtend]
  | cons x xs ih =>
    intro hch
    rw [List.chain'_cons] at hch
    simp only [ascExtend, hch.1, Bool.false_eq_true, if_false, List.length_cons]
    rw [ih x hch.2]

theorem countRun_pos {α : Type} (comp : α → α → Bool) (l : List α) :
    1 ≤ (countRun comp l).1 := by
  match l with
  | [] => simp [countRun]
  | [a] => simp [countRun]
  | a :: b :: rest =>
    by_cases hc : comp b a = true
    · simp [countRun, hc]
    · simp only [Bool.not_eq_true] at hc
      simp [countRun, hc]

theorem countRun_le_length {α : Type} (comp : α → α → Bool) (a : α) (rest : List α) :
    (countRun comp (a :: rest)).1 ≤ (a :: rest).length := by
  match rest with
  | [] => simp [countRun]
  | b :: rest =>
    by_cases hc : comp b a = true
    · simp only [countRun, hc, if_true, List.length_cons]
      exact Nat.succ_le_succ (descExtend_le_length comp a (b :: rest))
    · simp only [Bool.not_eq_true] at hc
      simp only [countRun, hc, Bool.false_eq_true, if_false, List.length_cons]
      exact Nat.succ_le_succ (ascExtend_le_length comp a (b :: rest))

theorem countRun_take_asc {α : Type} (comp : α → α → Bool) (a : α) (rest : List α)
    (hflag : (countRun comp (a :: rest)).2 = false) :
    List.Chain' (fun u v => comp v u = false)
      ((a :: rest).take (countRun comp (a :: rest)).1) := by
  match rest with
  | [] => simp [countRun]
  | b :: rest =>
    by_cases hc : comp b a = true
    · simp [countRun, hc] at hflag
    · simp only [Bool.not_eq_true] at hc
      simp only [countRun, hc, Bool.false_eq_true, if_false, List.take_succ_cons]
      exact ascExtend_chain comp a (b :: rest)

theorem countRun_take_desc {α : Type} (comp : α → α → Bool) (a : α) (rest : List α)
    (hflag : (countRun comp (a :: rest)).2 = true) :
    List.Chain' (fun u v => comp v u = true)
      ((a :: rest).take (countRun comp (a :: rest)).1) := by
  match rest with
  | [] => simp [countRun] at hflag
  | b :: rest =>
    by_cases hc : comp b a = true
    · simp only [countRun, hc, if_true, List.take_succ_cons]
      exact descExtend_chain comp a (b :: rest)
    · simp only [Bool.not_eq_true] at hc
      simp [countRun, hc] at hflag

theorem desc_chain_reverse_sorted {α : Type} {comp : α → α → Bool}
    (h : StrictWeakOrder comp) {l : List α}
    (hch : List.Chain' (fun u v => comp v u = true) l) :
    sortedLe comp l.reverse := by
  rw [sortedLe_chain' h, List.chain'_reverse]
  exact hch.imp (fun a b hab => h.asymm hab)

theorem chain_take_sorted {α : Type} {comp : α → α → Bool}
    (h : StrictWeakOrder comp) {l : List α}
    (hch : List.Chain' (fun u v => comp v u = false) l) :
    sortedLe comp l := by
  rw [sortedLe_chain' h]; exact hch

/-! ## Detector and extension lemmas -/

theorem detectRun_facts {α : Type} (comp : α → α → Bool) (l : List α) (start : Nat)
    (hs : start < l.length) :
    (detectRun comp l start).1.length = l.length ∧
    (detectRun comp l start).1.Perm l ∧
    (detectRun comp l start).1.take start = l.take start ∧
    1 ≤ (detectRun comp l start).2 ∧
    start + (detectRun comp l start).2 ≤ l.length := by
  have hk : (countRun comp (l.drop start)).1 ≤ (l.drop start).length := by
    cases hsfx : l.drop start with
    | nil =>
      have := congrArg List.length hsfx
      simp at this; omega
    | cons a rest => rw [← hsfx]; rw [hsfx]; exact countRun_le_length comp a rest
  have hb : start + (countRun comp (l.drop start)).1 ≤ l.length := by
    have := List.length_drop start l
    omega
  have hm : ((l.drop start).take (countRun comp (l.drop start)).1).reverse.length =
      (countRun comp (l.drop start)).1 := by
    simp [List.length_take]
    omega
  cases hf : (countRun comp (l.drop start)).2 with
  | true =>
    simp only [detectRun, hf, if_true]
    refine ⟨splice_length hb hm, splice_perm (List.reverse_perm _), splice_take hb,
      countRun_pos comp _, hb⟩
  | false =>
    simp only [detectRun, hf, Bool.false_eq_true, if_false]
    exact ⟨trivial, List.Perm.refl l, trivial, countRun_pos comp _, hb⟩

theorem detectRun_slice_sorted {α : Type} {comp : α → α → Bool}
    (h : StrictWeakOrder comp) (l : List α) (start : Nat)
    (hs : start < l.length) :
    sortedLe comp
      (((detectRun comp l start).1.drop start).take (detectRun comp l start).2) := by
  have hk : (countRun comp (l.drop start)).1 ≤ (l.drop start).length := by
    cases hsfx : l.drop start with
    | nil =>
      have := congrArg List.length hsfx
      simp at this; omega
    | cons a rest => rw [← hsfx]; rw [hsfx]; exact countRun_le_length comp a rest
  have hb : start + (countRun comp (l.drop start)).1 ≤ l.length := by
    have := List.length_drop start l
    omega
  have hm : ((l.drop start).take (countRun comp (l.drop start)).1).reverse.length =
      (countRun comp (l.drop start)).1 := by
    simp [List.length_take]
    omega
  cases hsfx : l.drop start with
  | nil =>
    have := congrArg List.length hsfx
    simp at this; omega
  | cons a rest =>
    cases hf : (countRun comp (l.drop start)).2 with
    | true =>
      simp only [detectRun, hf, if_true]
      rw [splice_middle hb hm]
      refine desc_chain_reverse_sorted h ?_
      rw [hsfx] at hf ⊢
      exact countRun_take_desc comp a rest hf
    | false =>
      simp only [detectRun, hf, Bool.false_eq_true, if_false]
      refine chain_take_sorted h ?_
      rw [hsfx] at hf ⊢
      exact countRun_take_asc comp a rest hf

theorem detectAndExtend_facts {α : Type} (comp : α → α → Bool) (minRun : Nat)
    (l : List α) (start : Nat) (hs : start < l.length) :
    (detectAndExtend comp minRun l start).1.length = l.length ∧
    (detectAndExtend comp minRun l start).1.Perm l ∧
    (detectAndExtend comp minRun l start).1.take start = l.take start ∧
    1 ≤ (detectAndExtend comp minRun l start).2 ∧
    start + (detectAndExtend comp minRun l start).2 ≤ l.length := by
  obtain ⟨hdl, hdp, hdt, hd1, hdb⟩ := detectRun_facts comp l start hs
  by_cases hlt : (detectRun comp l start).2 < minRun
  · have hforce : 1 ≤ min minRun (l.length - start) ∧
        start + min minRun (l.length - start) ≤ l.length := by
      constructor <;> omega
    have hslen : (((detectRun comp l start).1.drop start).take
        (min minRun (l.length - start))).length = min minRun (l.length - start) := by
      simp [List.length_take, List.length_drop, hdl]
    have hmlen : (binaryInsertionSort comp (((detectRun comp l start).1.drop start).take
        (min minRun (l.length - start)))).length = min minRun (l.length - start) := by
      rw [binaryInsertionSort_length, hslen]
    have hbnd : start + min minRun (l.length - start) ≤
        (detectRun comp l start).1.length := by
      rw [hdl]; exact hforce.2
    simp only [detectAndExtend, hlt, if_true]
    refine ⟨?_, ?_, ?_, hforce.1, hforce.2⟩
    · rw [splice_length hbnd hmlen, hdl]
    · refine ((splice_perm ?_).trans hdp)
      exact binaryInsertionSort_perm comp _
    · rw [splice_take hbnd, hdt]
  · simp only [detectAndExtend, hlt, if_false]
    exact ⟨hdl, hdp, hdt, hd1, hdb⟩

theorem detectAndExtend_slice_sorted {α : Type} {comp : α → α → Bool}
    (h : StrictWeakOrder comp) (minRun : Nat) (l : List α) (start : Nat)
    (hs : start < l.length) :
    sortedLe comp
      (((detectAndExtend comp minRun l start).1.drop start).take
        (detectAndExtend comp minRun l start).2) := by
  obtain ⟨hdl, _, _, _, _⟩ := detectRun_facts comp l start hs
  by_cases hlt : (detectRun comp l start).2 < minRun
  · have hslen : (((detectRun comp l start).1.drop start).take
        (min minRun (l.length - start))).length = min minRun (l.length - start) := by
      simp [List.length_take, List.length_drop, hdl]
    have hmlen : (binaryInsertionSort comp (((detectRun comp l start).1.drop start).take
        (min minRun (l.length - start)))).length = min minRun (l.length - start) := by
      rw [binaryInsertionSort_length, hslen]
    have hbnd : start + min minRun (l.length - start) ≤
        (detectRun comp l start).1.length := by
      rw [hdl]; omega
    simp only [detectAndExtend, hlt, if_true]
    rw [splice_middle hbnd hmlen]
    exact binaryInsertionSort_sorted h _
  · simp only [detectAndExtend, hlt, if_false]
    exact detectRun_slice_sorted h l start hs

/-! ## Run stack well-formedness -/

theorem stackWF_bound : ∀ (st : List Run) (e : Nat), stackWF st e →
    ∀ r ∈ st, r.start + r.length ≤ e := by
  intro st
  induction st with
  | nil => intro e _ r hr; simp at hr
  | cons t rest ih =>
    intro e hwf r hr
    rcases List.mem_cons.mp hr with h1 | h2
    · subst h1; exact Nat.le_of_eq hwf.1
    · have h1 := hwf.1
      have h2b := ih t.start hwf.2 r h2
      omega

/-! ## Merging two adjacent stack runs -/

theorem mergeAt_facts {α : Type} (comp : α → α → Bool) (l : List α)
    (s len1 len2 : Nat) (hb : s + len1 + len2 ≤ l.length) :
    (mergeAt comp l s len1 len2).length = l.length ∧
    (mergeAt comp l s len1 len2).Perm l ∧
    (mergeAt comp l s len1 len2).take s = l.take s ∧
    ((mergeAt comp l s len1 len2).drop s).take (len1 + len2) =
      mergeRuns comp ((l.drop s).take len1) ((l.drop (s + len1)).take len2) := by
  have hm : (mergeRuns comp ((l.drop s).take len1)
      ((l.drop (s + len1)).take len2)).length = len1 + len2 := by
    rw [mergeRuns_length]
    simp [List.length_take, List.length_drop]
    omega
  have hsplit : (l.drop s).take (len1 + len2) =
      (l.drop s).take len1 ++ ((l.drop (s + len1)).take len2) := by
    rw [List.take_add, List.drop_drop]
  have hbb : s + (len1 + len2) ≤ l.length := by omega
  refine ⟨?_, ?_, ?_, ?_⟩
  · exact splice_length hbb hm
  · refine splice_perm ?_
    rw [hsplit]
    exact mergeRuns_perm comp _ _
  · exact splice_take hbb
  · exact splice_middle hbb hm

theorem mergeStep_facts {α : Type} (comp : α → α → Bool) (l : List α)
    (c b : Run) (rest : List Run) (e : Nat)
    (hwf : stackWF (c :: b :: rest) e) (hlen : e ≤ l.length) :
    (mergeAt comp l b.start b.length c.length).length = l.length ∧
    (mergeAt comp l b.start b.length c.length).Perm l ∧
    stackWF (Run.mk b.start (b.length + c.length) :: rest) e := by
  obtain ⟨hc, hb, hrest⟩ := hwf
  have hbnd : b.start + b.length + c.length ≤ l.length := by omega
  obtain ⟨h1, h2, _, _⟩ := mergeAt_facts comp l b.start b.length c.length hbnd
  refine ⟨h1, h2, ?_, hrest⟩
  simp only []
  omega

theorem mergeStep_sorted {α : Type} {comp : α → α → Bool}
    (h : StrictWeakOrder comp) (l : List α) (c b : Run) (rest : List Run) (e : Nat)
    (hwf : stackWF (c :: b :: rest) e) (hlen : e ≤ l.length)
    (hrs : runsSorted comp l (c :: b :: rest)) :
    runsSorted comp (mergeAt comp l b.start b.length c.length)
      (Run.mk b.start (b.length + c.length) :: rest) := by
  obtain ⟨hc, hbe, hrest⟩ := hwf
  have hbnd : b.start + b.length + c.length ≤ l.length := by omega
  obtain ⟨h1, h2, h3, h4⟩ := mergeAt_facts comp l b.start b.length c.length hbnd
  intro r hr
  rcases List.mem_cons.mp hr with h5 | h5
  · subst h5
    simp only []
    rw [h4]
    refine mergeRuns_sorted h ?_ ?_
    · exact hrs b (by simp)
    · have := hrs c (by simp)
      rw [← hbe] at this
      exact this
  · have hrb : r.start + r.length ≤ b.start :=
      stackWF_bound rest b.start hrest r h5
    have hsl : ((mergeAt comp l b.start b.length c.length).drop r.start).take r.length =
        (l.drop r.start).take r.length :=
      take_eq_imp_slice_eq h3 hrb
    rw [hsl]
    exact hrs r (by simp [h5])

/-! ## The merge-collapse loop -/

theorem mergeCollapse_facts {α : Type} (comp : α → α → Bool) :
    ∀ (fuel : Nat) (l : List α) (st : List Run) (e : Nat),
      stackWF st e → e ≤ l.length →
      (mergeCollapse comp fuel l st).1.length = l.length ∧
      (mergeCollapse comp fuel l st).1.Perm l ∧
      stackWF (mergeCollapse comp fuel l st).2 e := by
  intro fuel
  induction fuel with
  | zero =>
    intro l st e hwf hlen
    exact ⟨rfl, List.Perm.refl l, hwf⟩
  | succ fuel ih =>
    intro l st e hwf hlen
    match st with
    | [] => exact ⟨rfl, List.Perm.refl l, hwf⟩
    | [r] => exact ⟨rfl, List.Perm.refl l, hwf⟩
    | c :: b :: rest =>
      by_cases hsm : shouldMerge (c :: b :: rest) = true
      · obtain ⟨h1, h2, h3⟩ := mergeStep_facts comp l c b rest e hwf hlen
        simp only [mergeCollapse, hsm, if_true]
        obtain ⟨g1, g2, g3⟩ := ih (mergeAt comp l b.start b.length c.length)
          (Run.mk b.start (b.length + c.length) :: rest) e h3 (by omega)
        exact ⟨by rw [g1, h1], g2.trans h2, g3⟩
      · simp only [Bool.not_eq_true] at hsm
        have heq : mergeCollapse comp (fuel + 1) l (c :: b :: rest) =
            (l, c :: b :: rest) := by
          simp [mergeCollapse, hsm]
        rw [heq]
        exact ⟨rfl, List.Perm.refl l, hwf⟩

theorem mergeCollapse_sorted {α : Type} {comp : α → α → Bool}
    (h : StrictWeakOrder comp) :
    ∀ (fuel : Nat) (l : List α) (st : List Run) (e : Nat),
      stackWF st e → e ≤ l.length → runsSorted comp l st →
      runsSorted comp (mergeCollapse comp fuel l st).1
        (mergeCollapse comp fuel l st).2 := by
  intro fuel
  induction fuel with
  | zero =>
    intro l st e hwf hlen hrs
    exact hrs
  | succ fuel ih =>
    intro l st e hwf hlen hrs
    match st with
    | [] => exact hrs
    | [r] => exact hrs
    | c :: b :: rest =>
      by_cases hsm : shouldMerge (c :: b :: rest) = true
      · obtain ⟨h1, h2, h3⟩ := mergeStep_facts comp l c b rest e hwf hlen
        simp only [mergeCollapse, hsm, if_true]
        exact ih (mergeAt comp l b.start b.length c.length)
          (Run.mk b.start (b.length + c.length) :: rest) e h3 (by omega)
          (mergeStep_sorted h l c b rest e hwf hlen hrs)
      · simp only [Bool.not_eq_true] at hsm
        simp only [mergeCollapse, hsm, Bool.false_eq_true, if_false]
        exact hrs

theorem mergeCollapse_exit {α : Type} (comp : α → α → Bool) :
    ∀ (fuel : Nat) (l : List α) (st : List Run), st.length ≤ fuel →
      shouldMerge (mergeCollapse comp fuel l st).2 = false := by
  intro fuel
  induction fuel with
  | zero =>
    intro l st hf
    have : st = [] := List.length_eq_zero.mp (Nat.le_zero.mp hf)
    subst this
    simp [mergeCollapse, shouldMerge]
  | succ fuel ih =>
    intro l st hf
    match st with
    | [] => simp [mergeCollapse, shouldMerge]
    | [r] => simp [mergeCollapse, shouldMerge]
    | c :: b :: rest =>
      by_cases hsm : shouldMerge (c :: b :: rest) = true
      · simp only [mergeCollapse, hsm, if_true]
        refine ih _ _ ?_
        simp only [List.length_cons] at hf ⊢
        omega
      · simp only [Bool.not_eq_true] at hsm
        simp only [mergeCollapse, hsm, Bool.false_eq_true, if_false]

/-! ## The final drain loop -/

theorem finalMerge_facts {α : Type} (comp : α → α → Bool) :
    ∀ (fuel : Nat) (l : List α) (st : List Run) (e : Nat),
      stackWF st e → e ≤ l.length →
      (finalMerge comp fuel l st).1.length = l.length ∧
      (finalMerge comp fuel l st).1.Perm l ∧
      stackWF (finalMerge comp fuel l st).2 e := by
  intro fuel
  induction fuel with
  | zero =>
    intro l st e hwf hlen
    exact ⟨rfl, List.Perm.refl l, hwf⟩
  | succ fuel ih =>
    intro l st e hwf hlen
    match st with
    | [] => exact ⟨rfl, List.Perm.refl l, hwf⟩
    | [r] => exact ⟨rfl, List.Perm.refl l, hwf⟩
    | c :: b :: rest =>
      obtain ⟨h1, h2, h3⟩ := mergeStep_facts comp l c b rest e hwf hlen
      simp only [finalMerge]
      obtain ⟨g1, g2, g3⟩ := ih (mergeAt comp l b.start b.length c.length)
        (Run.mk b.start (b.length + c.length) :: rest) e h3 (by omega)
      exact ⟨by rw [g1, h1], g2.trans h2, g3⟩

theorem finalMerge_sorted {α : Type} {comp : α → α → Bool}
    (h : StrictWeakOrder comp) :
    ∀ (fuel : Nat) (l : List α) (st : List Run) (e : Nat),
      stackWF st e → e ≤ l.length → runsSorted comp l st →
      runsSorted comp (finalMerge comp fuel l st).1 (finalMerge comp fuel l st).2 := by
  intro fuel
  induction fuel with
  | zero =>
    intro l st e hwf hlen hrs
    exact hrs
  | succ fuel ih =>
    intro l st e hwf hlen hrs
    match st with
    | [] => exact hrs
    | [r] => exact hrs
    | c :: b :: rest =>
      obtain ⟨h1, h2, h3⟩ := mergeStep_facts comp l c b rest e hwf hlen
      simp only [finalMerge]
      exact ih (mergeAt comp l b.start b.length c.length)
        (Run.mk b.start (b.length + c.length) :: rest) e h3 (by omega)
        (mergeStep_sorted h l c b rest e hwf hlen hrs)

theorem finalMerge_stack_len {α : Type} (comp : α → α → Bool) :
    ∀ (fuel : Nat) (l : List α) (st : List Run), st.length ≤ fuel + 1 →
      (finalMerge comp fuel l st).2.length ≤ 1 := by
  intro fuel
  induction fuel with
  | zero =>
    intro l st hf
    match st with
    | [] => simp [finalMerge]
    | [r] => simp [finalMerge]
    | c :: b :: rest => simp at hf
  | succ fuel ih =>
    intro l st hf
    match st with
    | [] => simp [finalMerge]
    | [r] => simp [finalMerge]
    | c :: b :: rest =>
      simp only [finalMerge]
      refine ih _ _ ?_
      simp at hf ⊢
      omega

/-- The merge-collapse loop changes only the sequence contents, never the
coverage of the stack: well-formedness at the same endpoint is preserved
(pure arithmetic, no bound on the sequence needed). -/
theorem mergeCollapse_stackWF {α : Type} (comp : α → α → Bool) :
    ∀ (fuel : Nat) (l : List α) (st : List Run) (e : Nat),
      stackWF st e → stackWF (mergeCollapse comp fuel l st).2 e := by
  intro fuel
  induction fuel with
  | zero => intro l st e hwf; exact hwf
  | succ fuel ih =>
    intro l st e hwf
    match st with
    | [] => exact hwf
    | [r] => exact hwf
    | c :: b :: rest =>
      obtain ⟨hc, hb, hrest⟩ := hwf
      by_cases hsm : shouldMerge (c :: b :: rest) = true
      · simp only [mergeCollapse, hsm, if_true]
        refine ih _ _ e ⟨?_, hrest⟩
        simp only []
        omega
      · simp only [Bool.not_eq_true] at hsm
        simp only [mergeCollapse, hsm, Bool.false_eq_true, if_false]
        exact ⟨hc, hb, hrest⟩

/-- Same for the final drain loop. -/
theorem finalMerge_stackWF {α : Type} (comp : α → α → Bool) :
    ∀ (fuel : Nat) (l : List α) (st : List Run) (e : Nat),
      stackWF st e → stackWF (finalMerge comp fuel l st).2 e := by
  intro fuel
  induction fuel with
  | zero => intro l st e hwf; exact hwf
  | succ fuel ih =>
    intro l st e hwf
    match st with
    | [] => exact hwf
    | [r] => exact hwf
    | c :: b :: rest =>
      obtain ⟨hc, hb, hrest⟩ := hwf
      simp only [finalMerge]
      refine ih _ _ e ⟨?_, hrest⟩
      simp only []
      omega

theorem stackWF_adjacent : ∀ (st : List Run) (e : Nat), stackWF st e →
    ∀ (i : Nat) (h : i + 1 < st.length),
      (st.get ⟨i, Nat.lt_of_succ_lt h⟩).start =
        (st.get ⟨i + 1, h⟩).start + (st.get ⟨i + 1, h⟩).length := by
  intro st
  induction st with
  | nil => intro e _ i h; simp at h
  | cons t rest ih =>
    intro e hwf i h
    match rest, hwf with
    | r2 :: rest2, ⟨h1, h2, h3⟩ =>
      match i with
      | 0 => exact h2.symm
      | i + 1 =>
        have hh : i + 1 < (r2 :: rest2).length := by
          simp at h ⊢; omega
        exact ih t.start ⟨h2, h3⟩ i hh

/-! ## The scan loop -/

theorem scanLoop_exit {α : Type} (comp : α → α → Bool) (minRun fuel : Nat)
    (l : List α) (st : List Run) (start : Nat) (hge : l.length ≤ start) :
    scanLoop comp minRun fuel l st start = some (l, st) := by
  cases fuel with
  | zero => simp [scanLoop, Nat.not_lt.mpr hge]
  | succ fuel => simp [scanLoop, Nat.not_lt.mpr hge]

theorem scanLoop_wf {α : Type} (comp : α → α → Bool) (minRun : Nat) :
    ∀ (fuel : Nat) (l : List α) (st : List Run) (start : Nat) (l2 : List α)
      (st2 : List Run),
      stackWF st start → start ≤ l.length →
      scanLoop comp minRun fuel l st start = some (l2, st2) →
      l2.length = l.length ∧ l2.Perm l ∧ stackWF st2 l2.length := by
  intro fuel
  induction fuel with
  | zero =>
    intro l st start l2 st2 hwf hle hra
    by_cases hlt : start < l.length
    · simp [scanLoop, hlt] at hra
    · simp [scanLoop, hlt] at hra
      obtain ⟨h1, h2⟩ := hra
      subst h1; subst h2
      have he : start = l.length := by omega
      exact ⟨rfl, List.Perm.refl l, he ▸ hwf⟩
  | succ fuel ih =>
    intro l st start l2 st2 hwf hle hra
    by_cases hlt : start < l.length
    · simp only [scanLoop, hlt, if_true] at hra
      obtain ⟨hdl, hdp, hdt, hd1, hdb⟩ := detectAndExtend_facts comp minRun l start hlt
      have hwf2 : stackWF
          (Run.mk start (detectAndExtend comp minRun l start).2 :: st)
          (start + (detectAndExtend comp minRun l start).2) := ⟨rfl, hwf⟩
      obtain ⟨g1, g2, g3⟩ := mergeCollapse_facts comp (st.length + 1)
        (detectAndExtend comp minRun l start).1
        (Run.mk start (detectAndExtend comp minRun l start).2 :: st)
        (start + (detectAndExtend comp minRun l start).2) hwf2
        (by rw [hdl]; exact hdb)
      obtain ⟨k1, k2, k3⟩ := ih _ _ _ l2 st2 g3 (by rw [g1, hdl]; exact hdb) hra
      exact ⟨by rw [k1, g1, hdl], (k2.trans g2).trans hdp, k3⟩
    · simp [scanLoop, hlt] at hra
      obtain ⟨h1, h2⟩ := hra
      subst h1; subst h2
      have he : start = l.length := by omega
      exact ⟨rfl, List.Perm.refl l, he ▸ hwf⟩

theorem scanLoop_total {α : Type} (comp : α → α → Bool) (minRun : Nat) :
    ∀ (fuel : Nat) (l : List α) (st : List Run) (start : Nat),
      stackWF st start → start ≤ l.length → l.length ≤ start + fuel →
      ∃ p, scanLoop comp minRun fuel l st start = some p := by
  intro fuel
  induction fuel with
  | zero =>
    intro l st start hwf hle hfu
    exact ⟨(l, st), scanLoop_exit comp minRun 0 l st start (by omega)⟩
  | succ fuel ih =>
    intro l st start hwf hle hfu
    by_cases hlt : start < l.length
    · simp only [scanLoop, hlt, if_true]
      obtain ⟨hdl, hdp, hdt, hd1, hdb⟩ := detectAndExtend_facts comp minRun l start hlt
      have hwf2 : stackWF
          (Run.mk start (detectAndExtend comp minRun l start).2 :: st)
          (start + (detectAndExtend comp minRun l start).2) := ⟨rfl, hwf⟩
      obtain ⟨g1, g2, g3⟩ := mergeCollapse_facts comp (st.length + 1)
        (detectAndExtend comp minRun l start).1
        (Run.mk start (detectAndExtend comp minRun l start).2 :: st)
        (start + (detectAndExtend comp minRun l start).2) hwf2
        (by rw [hdl]; exact hdb)
      refine ih _ _ _ g3 (by rw [g1, hdl]; exact hdb) ?_
      rw [g1, hdl]
      omega
    · exact ⟨(l, st), scanLoop_exit comp minRun _ l st start (by omega)⟩

theorem scanLoop_sorted {α : Type} {comp : α → α → Bool}
    (h : StrictWeakOrder comp) (minRun : Nat) :
    ∀ (fuel : Nat) (l : List α) (st : List Run) (start : Nat) (l2 : List α)
      (st2 : List Run),
      stackWF st start → start ≤ l.length → runsSorted comp l st →
      scanLoop comp minRun fuel l st start = some (l2, st2) →
      runsSorted comp l2 st2 := by
  intro fuel
  induction fuel with
  | zero =>
    intro l st start l2 st2 hwf hle hrs hra
    by_cases hlt : start < l.length
    · simp [scanLoop, hlt] at hra
    · simp [scanLoop, hlt] at hra
      obtain ⟨h1, h2⟩ := hra
      subst h1; subst h2
      exact hrs
  | succ fuel ih =>
    intro l st start l2 st2 hwf hle hrs hra
    by_cases hlt : start < l.length
    · simp only [scanLoop, hlt, if_true] at hra
      obtain ⟨hdl, hdp, hdt, hd1, hdb⟩ := detectAndExtend_facts comp minRun l start hlt
      have hwf2 : stackWF
          (Run.mk start (detectAndExtend comp minRun l start).2 :: st)
          (start + (detectAndExtend comp minRun l start).2) := ⟨rfl, hwf⟩
      have hrs2 : runsSorted comp (detectAndExtend comp minRun l start).1
          (Run.mk start (detectAndExtend comp minRun l start).2 :: st) := by
        intro r hr
        rcases List.mem_cons.mp hr with h5 | h5
        · subst h5
          exact detectAndExtend_slice_sorted h minRun l start hlt
        · have hrb : r.start + r.length ≤ start :=
            stackWF_bound st start hwf r h5
          rw [take_eq_imp_slice_eq hdt hrb]
          exact hrs r h5
      obtain ⟨g1, g2, g3⟩ := mergeCollapse_facts comp (st.length + 1)
        (detectAndExtend comp minRun l start).1
        (Run.mk start (detectAndExtend comp minRun l start).2 :: st)
        (start + (detectAndExtend comp minRun l start).2) hwf2
        (by rw [hdl]; exact hdb)
      have hrs3 := mergeCollapse_sorted h (st.length + 1)
        (detectAndExtend comp minRun l start).1
        (Run.mk start (detectAndExtend comp minRun l start).2 :: st)
        (start + (detectAndExtend comp minRun l start).2) hwf2
        (by rw [hdl]; exact hdb) hrs2
      exact ih _ _ _ l2 st2 g3 (by rw [g1, hdl]; exact hdb) hrs3 hra
    · simp [scanLoop, hlt] at hra
      obtain ⟨h1, h2⟩ := hra
      subst h1; subst h2
      exact hrs

/-! ## Top-level driver lemmas -/

theorem timsortImpl_short {α : Type} (comp : α → α → Bool) (l : List α)
    (hn : l.length ≤ 1) : timsortImpl comp l = some l := by
  simp [timsortImpl, hn]

theorem sortedLe_of_short {α : Type} (comp : α → α → Bool) (l : List α)
    (hn : l.length ≤ 1) : sortedLe comp l := by
  match l with
  | [] => simp [sortedLe]
  | [x] => simp [sortedLe]
  | x :: y :: rest => simp at hn

theorem timsortImpl_total {α : Type} (comp : α → α → Bool) (l : List α) :
    ∃ l2, timsortImpl comp l = some l2 ∧ l2.length = l.length ∧ l2.Perm l := by
  by_cases hn : l.length ≤ 1
  · exact ⟨l, timsortImpl_short comp l hn, rfl, List.Perm.refl l⟩
  · obtain ⟨⟨l3, st3⟩, hscan⟩ := scanLoop_total comp (minRunLength l.length)
      l.length l [] 0 rfl (by omega) (by omega)
    obtain ⟨h1, h2, h3⟩ := scanLoop_wf comp (minRunLength l.length) l.length
      l [] 0 l3 st3 rfl (by omega) hscan
    obtain ⟨g1, g2, g3⟩ := finalMerge_facts comp st3.length l3 st3
      l3.length h3 (Nat.le_refl _)
    refine ⟨(finalMerge comp st3.length l3 st3).1, ?_, ?_, ?_⟩
    · simp [timsortImpl, hn, hscan]
    · rw [g1, h1]
    · exact g2.trans h2

theorem timsortImpl_sorted_perm {α : Type} {comp : α → α → Bool}
    (h : StrictWeakOrder comp) (l l2 : List α)
    (hrun : timsortImpl comp l = some l2) :
    sortedLe comp l2 ∧ l2.Perm l := by
  by_cases hn : l.length ≤ 1
  · rw [timsortImpl_short comp l hn] at hrun
    obtain rfl : l = l2 := by simpa using hrun
    exact ⟨sortedLe_of_short comp l hn, List.Perm.refl l⟩
  · have hmap : (scanLoop comp (minRunLength l.length) l.length l [] 0).map
        (fun ls => (finalMerge comp ls.2.length ls.1 ls.2).1) = some l2 := by
      simpa [timsortImpl, hn] using hrun
    obtain ⟨⟨l3, st3⟩, hscan, hval⟩ := Option.map_eq_some'.mp hmap
    obtain ⟨h1, h2, h3⟩ := scanLoop_wf comp (minRunLength l.length) l.length
      l [] 0 l3 st3 rfl (by omega) hscan
    have hrs := scanLoop_sorted h (minRunLength l.length) l.length l [] 0 l3 st3
      rfl (by omega) (by intro r hr; simp at hr) hscan
    obtain ⟨g1, g2, g3⟩ := finalMerge_facts comp st3.length l3 st3
      l3.length h3 (Nat.le_refl _)
    have grs := finalMerge_sorted h st3.length l3 st3 l3.length h3
      (Nat.le_refl _) hrs
    have glen := finalMerge_stack_len comp st3.length l3 st3 (Nat.le_succ _)
    simp only at hval
    subst hval
    refine ⟨?_, g2.trans h2⟩
    match hst : (finalMerge comp st3.length l3 st3).2 with
    | [] =>
      rw [hst] at g3
      have h0 : l3.length = 0 := g3
      rw [h1] at h0
      omega
    | [r] =>
      rw [hst] at g3 grs
      obtain ⟨hr1, hr0⟩ := g3
      have hr0' : r.start = 0 := hr0
      have hsl := grs r (by simp)
      rw [hr0'] at hsl hr1
      simp only [List.drop_zero] at hsl
      have hlen3 : r.length = (finalMerge comp st3.length l3 st3).1.length := by
        rw [g1]; omega
      rw [hlen3, List.take_length] at hsl
      exact hsl
    | c :: b :: rest =>
      rw [hst] at glen
      simp at glen

/-! ## Minimum-run length lemmas -/

theorem or_le_one {r m : Nat} (hr : r ≤ 1) (hm : m ≤ 1) : r ||| m ≤ 1 := by
  interval_cases r <;> interval_cases m <;> decide

theorem lor_one_eq {r : Nat} (hr : r ≤ 1) : r ||| 1 = 1 := by
  interval_cases r <;> decide

theorem minRunAux_low (fuel m r : Nat) (h : ¬ MIN_MERGE ≤ m) :
    minRunAux fuel m r = m + r := by
  cases fuel with
  | zero => rfl
  | succ fuel => simp [minRunAux, h]

theorem minRunAux_range :
    ∀ (fuel n r : Nat), n ≤ fuel → r ≤ 1 → MIN_MERGE ≤ n →
      MIN_MERGE / 2 ≤ minRunAux fuel n r ∧ minRunAux fuel n r ≤ MIN_MERGE := by
  intro fuel
  have hM : MIN_MERGE = 32 := rfl
  induction fuel with
  | zero =>
    intro n r hf hr h32
    rw [hM] at h32
    omega
  | succ fuel ih =>
    intro n r hf hr h32
    simp only [minRunAux, h32, if_true]
    have hr' : r ||| n % 2 ≤ 1 := or_le_one hr (by omega)
    by_cases h2 : MIN_MERGE ≤ n / 2
    · exact ih (n / 2) (r ||| n % 2) (by rw [hM] at h32; omega) hr' h2
    · rw [minRunAux_low fuel (n / 2) (r ||| n % 2) h2]
      rw [hM] at h32 h2 ⊢
      omega

theorem minRunAux_pow :
    ∀ (fuel n r : Nat), n ≤ fuel → r ≤ 1 →
      n + r ≤ 2 ^ (minRunShiftsAux fuel n) * minRunAux fuel n r := by
  intro fuel
  induction fuel with
  | zero =>
    intro n r hf hr
    have h0 : n = 0 := by omega
    subst h0
    simp [minRunAux, minRunShiftsAux]
  | succ fuel ih =>
    intro n r hf hr
    by_cases hc : MIN_MERGE ≤ n
    · simp only [minRunAux, minRunShiftsAux, hc, if_true]
      have hM : MIN_MERGE = 32 := rfl
      have hr' : r ||| n % 2 ≤ 1 := or_le_one hr (by omega)
      have ih' := ih (n / 2) (r ||| n % 2) (by rw [hM] at hc; omega) hr'
      rw [pow_succ, Nat.mul_comm (2 ^ minRunShiftsAux fuel (n / 2)) 2,
        Nat.mul_assoc]
      have hparity : n % 2 = 0 ∨ n % 2 = 1 := by omega
      rcases hparity with hp | hp
      · rw [hp, Nat.or_zero] at ih' ⊢
        omega
      · rw [hp, lor_one_eq hr] at ih' ⊢
        omega
    · simp only [minRunAux, minRunShiftsAux, hc, if_false]
      omega

theorem minRunLength_low (n : Nat) (h : n < MIN_MERGE) : minRunLength n = n := by
  unfold minRunLength
  rw [minRunAux_low n n 0 (by omega)]
  omega

theorem minRunLength_range (n : Nat) (h : MIN_MERGE ≤ n) :
    MIN_MERGE / 2 ≤ minRunLength n ∧ minRunLength n ≤ MIN_MERGE :=
  minRunAux_range n n 0 (Nat.le_refl n) (by omega) h

theorem minRunLength_le (n : Nat) : minRunLength n ≤ n := by
  have hM : MIN_MERGE = 32 := rfl
  by_cases h : MIN_MERGE ≤ n
  · have h2 := (minRunLength_range n h).2
    omega
  · rw [minRunLength_low n (by omega)]

theorem minRunLength_pow (n : Nat) :
    n ≤ 2 ^ minRunShifts n * minRunLength n := by
  have := minRunAux_pow n n 0 (Nat.le_refl n) (by omega)
  simpa [minRunLength, minRunShifts] using this

/-! ## Behaviour on an already-sorted sequence -/

theorem countRun_sorted_full {α : Type} (comp : α → α → Bool) (l : List α)
    (hne : l ≠ []) (hs : List.Chain' (fun a b => comp b a = false) l) :
    countRun comp l = (l.length, false) := by
  match l with
  | [] => exact absurd rfl hne
  | [a] => simp [countRun]
  | a :: b :: rest =>
    have hba : comp b a = false := hs.rel_head
    simp [countRun, hba, ascExtend_full comp a (b :: rest) hs]

theorem mergeCollapse_single {α : Type} (comp : α → α → Bool) (fuel : Nat)
    (l : List α) (r : Run) : mergeCollapse comp fuel l [r] = (l, [r]) := by
  cases fuel with
  | zero => rfl
  | succ fuel => simp [mergeCollapse]

theorem finalMerge_single {α : Type} (comp : α → α → Bool) (fuel : Nat)
    (l : List α) (r : Run) : finalMerge comp fuel l [r] = (l, [r]) := by
  cases fuel with
  | zero => rfl
  | succ fuel => simp [finalMerge]

theorem scanLoop_succ_lt {α : Type} (comp : α → α → Bool) (mr fuel : Nat)
    (l : List α) (st : List Run) (start : Nat) (hlt : start < l.length) :
    scanLoop comp mr (fuel + 1) l st start =
      scanLoop comp mr fuel
        (mergeCollapse comp (st.length + 1) (detectAndExtend comp mr l start).1
          (Run.mk start (detectAndExtend comp mr l start).2 :: st)).1
        (mergeCollapse comp (st.length + 1) (detectAndExtend comp mr l start).1
          (Run.mk start (detectAndExtend comp mr l start).2 :: st)).2
        (start + (detectAndExtend comp mr l start).2) := by
  simp [scanLoop, hlt]

theorem timsortImpl_of_sorted {α : Type} {comp : α → α → Bool}
    (h : StrictWeakOrder comp) (l : List α) (hs : sortedLe comp l) :
    timsortImpl comp l = some l := by
  by_cases hn : l.length ≤ 1
  · exact timsortImpl_short comp l hn
  · have hch : List.Chain' (fun a b => comp b a = false) l :=
      (sortedLe_chain' h).mp hs
    have hne : l ≠ [] := by
      intro he; subst he; simp at hn
    have hcr : countRun comp l = (l.length, false) :=
      countRun_sorted_full comp l hne hch
    have hdr : detectRun comp l 0 = (l, l.length) := by
      simp [detectRun, hcr]
    have hmle : minRunLength l.length ≤ l.length := minRunLength_le _
    have hde : detectAndExtend comp (minRunLength l.length) l 0 = (l, l.length) := by
      simp [detectAndExtend, hdr, Nat.not_lt.mpr hmle]
    obtain ⟨m, hm⟩ : ∃ m, l.length = m + 1 := ⟨l.length - 1, by omega⟩
    have hscan : scanLoop comp (minRunLength l.length) l.length l [] 0 =
        some (l, [Run.mk 0 l.length]) := by
      have h0 : scanLoop comp (minRunLength l.length) l.length l [] 0 =
          scanLoop comp (minRunLength l.length) (m + 1) l [] 0 := by
        rw [hm]
      rw [h0, scanLoop_succ_lt comp _ m l [] 0 (by omega)]
      simp only [hde, mergeCollapse_single, List.length_nil]
      exact scanLoop_exit comp _ m l [Run.mk 0 l.length] (0 + l.length) (by omega)
    simp [timsortImpl, hn, hscan, finalMerge_single]

/-! ## Maximality of the detected run -/

theorem ascExtend_boundary {α : Type} (comp : α → α → Bool) :
    ∀ (prev : α) (xs : List α) (d : α), ascExtend comp prev xs < xs.length →
      comp (xs.getD (ascExtend comp prev xs) d)
        ((prev :: xs).getD (ascExtend comp prev xs) d) = true := by
  intro prev xs
  induction xs generalizing prev with
  | nil => intro d hd; simp at hd
  | cons x xs ih =>
    intro d hd
    by_cases hc : comp x prev = true
    · simp [ascExtend, hc]
    · simp only [Bool.not_eq_true] at hc
      simp only [ascExtend, hc, Bool.false_eq_true, if_false,
        List.length_cons] at hd ⊢
      rw [List.getD_cons_succ, List.getD_cons_succ]
      exact ih x d (by omega)

theorem descExtend_boundary {α : Type} (comp : α → α → Bool) :
    ∀ (prev : α) (xs : List α) (d : α), descExtend comp prev xs < xs.length →
      comp (xs.getD (descExtend comp prev xs) d)
        ((prev :: xs).getD (descExtend comp prev xs) d) = false := by
  intro prev xs
  induction xs generalizing prev with
  | nil => intro d hd; simp at hd
  | cons x xs ih =>
    intro d hd
    by_cases hc : comp x prev = true
    · simp only [descExtend, hc, if_true, List.length_cons] at hd ⊢
      rw [List.getD_cons_succ, List.getD_cons_succ]
      exact ih x d (by omega)
    · simp only [Bool.not_eq_true] at hc
      simp only [descExtend, hc, Bool.false_eq_true, if_false] at hd ⊢
      simpa using hc

/-! ## Concrete comparisons are strict weak orderings -/

theorem natLt_swo : StrictWeakOrder natLt := by
  constructor
  · intro a; simp [natLt]
  · intro a b c hab hbc
    simp only [natLt, decide_eq_true_eq] at hab hbc ⊢
    omega
  · intro a b c h1 h2 h3 h4
    simp only [natLt, decide_eq_false_iff_not] at h1 h2 h3 h4 ⊢
    omega

theorem keyLt_swo : StrictWeakOrder keyLt := by
  constructor
  · intro a; simp [keyLt]
  · intro a b c hab hbc
    simp only [keyLt, decide_eq_true_eq] at hab hbc ⊢
    omega
  · intro a b c h1 h2 h3 h4
    simp only [keyLt, decide_eq_false_iff_not] at h1 h2 h3 h4 ⊢
    omega

/-! ## The claims -/

/-- C1: for every finite sequence S and strict-weak-order predicate P, after
`timsort(S, P)` returns, the sequence is non-decreasing under P (for no
adjacent pair does P hold of the later element over the earlier) and is a
permutation of the input. -/
theorem claim_C1 {α : Type} (comp : α → α → Bool) (l l2 : List α)
    (h : StrictWeakOrder comp) (hrun : timsortImpl comp l = some l2) :
    List.Chain' (fun a b => comp b a = false) l2 ∧ l2.Perm l := by
  obtain ⟨hsorted, hperm⟩ := timsortImpl_sorted_perm h l l2 hrun
  exact ⟨hsorted.chain', hperm⟩

theorem claim_C1_witness :
    List.Chain' (fun a b => natLt b a = false) [1, 2, 3, 4, 5] ∧
      ([1, 2, 3, 4, 5] : List Nat).Perm [5, 3, 4, 1, 2] :=
  claim_C1 natLt [5, 3, 4, 1, 2] [1, 2, 3, 4, 5] natLt_swo (by decide)

/-- C2 (refuted by the code — evaluation of the sort at a failing input):
`(5, 5)` appears before `(5, 17)` in `tieInput`, the two are equal under
`keyLt` (neither is less than the other), yet in the sorted output
`(5, 17)` appears before `(5, 5)`: the merge step prefers the right run on
ties, so the sort is not stable. -/
theorem claim_C2_bug :
    keyLt (5, 5) (5, 17) = false ∧ keyLt (5, 17) (5, 5) = false ∧
    [(5, 5), (5, 17)].Sublist tieInput ∧
    timsortImpl keyLt tieInput = some tieOutput ∧
    [(5, 17), (5, 5)].Sublist tieOutput ∧
    ¬ [(5, 5), (5, 17)].Sublist tieOutput := by decide

/-- C3 (refuted by the code — evaluation of the merge at a failing input):
with `a = (5, 0)` and `b = (5, 1)` incomparable under `keyLt` (a tie), the
merge of left run `[a]` with right run `[b]` emits the RIGHT element first,
whereas the claim says the left element is placed first exactly when
`predicate(right, left)` is false (which holds here). -/
theorem claim_C3_bug :
    keyLt (5, 0) (5, 1) = false ∧ keyLt (5, 1) (5, 0) = false ∧
    mergeRuns keyLt [(5, 0)] [(5, 1)] = [(5, 1), (5, 0)] := by decide

/-- C4 (counterexample to the claimed range): at n = 32 (which is at the
threshold MIN_MERGE) the function returns 16, which is not in the claimed
target range of roughly 32 to 64. -/
theorem claim_C4_counterexample :
    minRunLength 32 = 16 ∧ ¬ (32 ≤ minRunLength 32 ∧ minRunLength 32 ≤ 64) := by
  decide

/-- C4 (amended): for every n ≥ MIN_MERGE = 32, `minRunLength n` lies in the
range MIN_MERGE/2 = 16 to MIN_MERGE = 32, chosen so that n does not exceed
2^k · minRunLength n, where k is the number of right shifts performed. -/
theorem claim_C4 (n : Nat) (h : MIN_MERGE ≤ n) :
    MIN_MERGE / 2 ≤ minRunLength n ∧ minRunLength n ≤ MIN_MERGE ∧
      n ≤ 2 ^ minRunShifts n * minRunLength n :=
  ⟨(minRunLength_range n h).1, (minRunLength_range n h).2, minRunLength_pow n⟩

theorem claim_C4_witness :
    MIN_MERGE / 2 ≤ minRunLength 100 ∧ minRunLength 100 ≤ MIN_MERGE ∧
      100 ≤ 2 ^ minRunShifts 100 * minRunLength 100 :=
  claim_C4 100 (by decide)

/-- C5: whenever the post-push merge loop exits (its fuel bound being at
least the stack size, which always holds at its call sites), the resulting
run stack satisfies the balance invariant at its top: with at least 3 entries
the third-from-top length A, second-from-top B and top C satisfy A > B + C,
and with at least 2 entries B > C. -/
theorem claim_C5 {α : Type} (comp : α → α → Bool) (l : List α) (st : List Run)
    (fuel : Nat) (hf : st.length ≤ fuel) :
    (∀ c b a rest, (mergeCollapse comp fuel l st).2 = c :: b :: a :: rest →
       b.length + c.length < a.length ∧ c.length < b.length) ∧
    (∀ c b rest, (mergeCollapse comp fuel l st).2 = c :: b :: rest →
       c.length < b.length) := by
  have hsm := mergeCollapse_exit comp fuel l st hf
  constructor
  · intro c b a rest hst
    rw [hst] at hsm
    simp [shouldMerge] at hsm
    omega
  · intro c b rest hst
    rw [hst] at hsm
    match rest with
    | [] =>
      simp [shouldMerge] at hsm
      omega
    | a :: rest2 =>
      simp [shouldMerge] at hsm
      omega

theorem claim_C5_witness :
    (Run.mk 6 3).length + (Run.mk 9 2).length < (Run.mk 0 6).length ∧
      (Run.mk 9 2).length < (Run.mk 6 3).length :=
  (claim_C5 natLt [0] [Run.mk 9 2, Run.mk 6 3, Run.mk 0 6] 3 (by decide)).1
    (Run.mk 9 2) (Run.mk 6 3) (Run.mk 0 6) [] (by decide)

/-- C8: on inputs of length 0 or 1 the sort returns immediately as a no-op —
the sequence is unchanged and (by the comparison-counting instrumentation)
the predicate is invoked zero times. -/
theorem claim_C8 {α : Type} (comp : α → α → Bool) (l : List α)
    (hn : l.length ≤ 1) :
    timsortImpl comp l = some l ∧ timsortImplCount comp l = some (l, 0) := by
  refine ⟨timsortImpl_short comp l hn, ?_⟩
  simp [timsortImplCount, hn]

theorem claim_C8_witness :
    timsortImpl natLt [7] = some [7] ∧
      timsortImplCount natLt [7] = some ([7], 0) :=
  claim_C8 natLt [7] (by decide)

/-- C9: sorting is idempotent — if `timsort(S, P)` with a strict-weak-order
predicate returns S2, then `timsort(S2, P)` returns S2 itself. -/
theorem claim_C9 {α : Type} {comp : α → α → Bool} (h : StrictWeakOrder comp)
    (l l2 : List α) (hrun : timsortImpl comp l = some l2) :
    timsortImpl comp l2 = some l2 :=
  timsortImpl_of_sorted h l2 (timsortImpl_sorted_perm h l l2 hrun).1

theorem claim_C9_witness : timsortImpl natLt [1, 2] = some [1, 2] :=
  claim_C9 natLt_swo [2, 1] [1, 2] (by decide)

/-- C10: for every input and predicate the sort terminates: the driver always
returns a result; moreover each detected (and possibly extended) run has
length at least 1, so the scan position strictly advances, and the final
draining loop reduces the stack to at most one entry. -/
theorem claim_C10 {α : Type} (comp : α → α → Bool) (l : List α) :
    (∃ l2, timsortImpl comp l = some l2) ∧
    (∀ start, start < l.length →
      1 ≤ (detectAndExtend comp (minRunLength l.length) l start).2) ∧
    (∀ (fuel : Nat) (l2 : List α) (st : List Run), st.length ≤ fuel + 1 →
      (finalMerge comp fuel l2 st).2.length ≤ 1) := by
  refine ⟨?_, ?_, ?_⟩
  · obtain ⟨l2, h1, _, _⟩ := timsortImpl_total comp l
    exact ⟨l2, h1⟩
  · intro start hstart
    exact (detectAndExtend_facts comp (minRunLength l.length) l start
      hstart).2.2.2.1
  · intro fuel l2 st hf
    exact finalMerge_stack_len comp fuel l2 st hf

theorem claim_C10_witness :
    (∃ l2, timsortImpl natLt [3, 1, 2] = some l2) ∧
      1 ≤ (detectAndExtend natLt (minRunLength ([3, 1, 2] : List Nat).length)
        [3, 1, 2] 0).2 :=
  ⟨(claim_C10 natLt [3, 1, 2]).1, (claim_C10 natLt [3, 1, 2]).2.1 0 (by decide)⟩

/-- C7: the run stack invariant — it holds of the empty stack at 0, is
preserved by the merge-collapse loop, the drain loop and the scan loop, and
whenever it holds it forces the claimed properties: every run satisfies
`start + length ≤ n`, and the runs are contiguous in left-to-right (bottom-up)
stack order, each run's start equal to the previous (deeper) run's start plus
its length. -/
theorem claim_C7 {α : Type} (comp : α → α → Bool) (minRun : Nat) :
    stackWF ([] : List Run) 0 ∧
    (∀ (l : List α) (fuel : Nat) (st : List Run) (e : Nat),
      stackWF st e → stackWF (mergeCollapse comp fuel l st).2 e) ∧
    (∀ (l : List α) (fuel : Nat) (st : List Run) (e : Nat),
      stackWF st e → stackWF (finalMerge comp fuel l st).2 e) ∧
    (∀ (fuel : Nat) (l : List α) (st : List Run) (start : Nat)
       (l2 : List α) (st2 : List Run),
      stackWF st start → start ≤ l.length →
      scanLoop comp minRun fuel l st start = some (l2, st2) →
      stackWF st2 l2.length) ∧
    (∀ (st : List Run) (e n : Nat), stackWF st e → e ≤ n →
      (∀ r ∈ st, r.start + r.length ≤ n) ∧
      (∀ (i : Nat) (hi : i + 1 < st.length),
        (st.get ⟨i, Nat.lt_of_succ_lt hi⟩).start =
          (st.get ⟨i + 1, hi⟩).start + (st.get ⟨i + 1, hi⟩).length)) := by
  refine ⟨rfl, ?_, ?_, ?_, ?_⟩
  · intro l fuel st e hwf
    exact mergeCollapse_stackWF comp fuel l st e hwf
  · intro l fuel st e hwf
    exact finalMerge_stackWF comp fuel l st e hwf
  · intro fuel l st start l2 st2 hwf hle hra
    exact (scanLoop_wf comp minRun fuel l st start l2 st2 hwf hle hra).2.2
  · intro st e n hwf hen
    constructor
    · intro r hr
      have := stackWF_bound st e hwf r hr
      omega
    · intro i hi
      exact stackWF_adjacent st e hwf i hi

theorem claim_C7_witness :
    (Run.mk 2 3).start + (Run.mk 2 3).length ≤ 7 :=
  ((claim_C7 natLt 0).2.2.2.2 [Run.mk 2 3, Run.mk 0 2] 5 7
    (by simp [stackWF]) (by decide)).1 (Run.mk 2 3) (by decide)

/-- C6: the Run Detector started at index `start` of a sequence of length n:
if `start + 1 ≥ n` it reports run length 1 and leaves the sequence unchanged;
if the element at `start+1` is less than the element at `start`, the detected
range is a strictly-descending chain, maximal (the next element, if any, is
not strictly less than its predecessor), and exactly that range is reversed
in place, after which it reads strictly ascending; otherwise the detected
range is a chain of not-less steps, maximal (the next element, if any, is
less than its predecessor), and the sequence is unchanged; the reported
length is always at least 1. -/
theorem claim_C6 {α : Type} (comp : α → α → Bool) (l : List α) (start : Nat)
    (hs : start < l.length) :
    1 ≤ (detectRun comp l start).2 ∧
    (l.length ≤ start + 1 → detectRun comp l start = (l, 1)) ∧
    (∀ a b rest, l.drop start = a :: b :: rest →
      (comp b a = true →
        List.Chain' (fun u v => comp v u = true)
          ((l.drop start).take (detectRun comp l start).2) ∧
        (∀ d, start + (detectRun comp l start).2 < l.length →
          comp ((l.drop start).getD (detectRun comp l start).2 d)
            ((l.drop start).getD ((detectRun comp l start).2 - 1) d) = false) ∧
        (detectRun comp l start).1.take start = l.take start ∧
        (detectRun comp l start).1.drop (start + (detectRun comp l start).2) =
          l.drop (start + (detectRun comp l start).2) ∧
        ((detectRun comp l start).1.drop start).take (detectRun comp l start).2 =
          ((l.drop start).take (detectRun comp l start).2).reverse ∧
        List.Chain' (fun u v => comp u v = true)
          (((detectRun comp l start).1.drop start).take
            (detectRun comp l start).2)) ∧
      (comp b a = false →
        (detectRun comp l start).1 = l ∧
        List.Chain' (fun u v => comp v u = false)
          ((l.drop start).take (detectRun comp l start).2) ∧
        (∀ d, start + (detectRun comp l start).2 < l.length →
          comp ((l.drop start).getD (detectRun comp l start).2 d)
            ((l.drop start).getD ((detectRun comp l start).2 - 1) d) = true))) := by
  refine ⟨(detectRun_facts comp l start hs).2.2.2.1, ?_, ?_⟩
  · intro h1
    have hlen : (l.drop start).length = 1 := by
      rw [List.length_drop]; omega
    obtain ⟨x, hx⟩ := List.length_eq_one.mp hlen
    simp [detectRun, hx, countRun]
  · intro a b rest hdrop
    have hlendrop : (l.drop start).length = l.length - start :=
      List.length_drop start l
    have hlen2 : l.length - start = rest.length + 2 := by
      have := congrArg List.length hdrop
      simp [List.length_drop] at this
      omega
    constructor
    · intro hba
      have hcr' : countRun comp (a :: b :: rest) =
          (descExtend comp a (b :: rest) + 1, true) := by
        simp [countRun, hba]
      have hcr : countRun comp (l.drop start) =
          (descExtend comp a (b :: rest) + 1, true) := by
        rw [hdrop]; exact hcr'
      have hk : (detectRun comp l start).2 = descExtend comp a (b :: rest) + 1 := by
        simp [detectRun, hcr]
      have hkle : descExtend comp a (b :: rest) + 1 ≤ (l.drop start).length := by
        have hcl := countRun_le_length comp a (b :: rest)
        rw [hcr'] at hcl
        rw [hdrop]
        simpa using hcl
      have hb2 : start + (descExtend comp a (b :: rest) + 1) ≤ l.length := by
        omega
      have hm : (((l.drop start).take (descExtend comp a (b :: rest) + 1)).reverse).length
          = descExtend comp a (b :: rest) + 1 := by
        simp [List.length_take]
        omega
      have hd1 : (detectRun comp l start).1 =
          splice l start (descExtend comp a (b :: rest) + 1)
            (((l.drop start).take (descExtend comp a (b :: rest) + 1)).reverse) := by
        simp [detectRun, hcr]
      have hflag : (countRun comp (a :: b :: rest)).2 = true := by
        simp [hcr']
      have hchain : List.Chain' (fun u v => comp v u = true)
          ((l.drop start).take (descExtend comp a (b :: rest) + 1)) := by
        rw [hdrop]
        have hc0 := countRun_take_desc comp a (b :: rest) hflag
        rw [hcr'] at hc0
        simpa using hc0
      refine ⟨?_, ?_, ?_, ?_, ?_, ?_⟩
      · rw [hk]; exact hchain
      · intro d hlt
        rw [hk] at hlt ⊢
        have hde : descExtend comp a (b :: rest) < (b :: rest).length := by
          simp only [List.length_cons]
          omega
        have hbd := descExtend_boundary comp a (b :: rest) d hde
        rw [hdrop]
        simp only [Nat.add_sub_cancel, List.getD_cons_succ]
        exact hbd
      · rw [hd1]; exact splice_take hb2
      · rw [hd1, hk]; exact splice_drop hb2 hm
      · rw [hd1, hk]; exact splice_middle hb2 hm
      · rw [hk, hd1, splice_middle hb2 hm, List.chain'_reverse]
        exact hchain
    · intro hba
      have hcr' : countRun comp (a :: b :: rest) =
          (ascExtend comp a (b :: rest) + 1, false) := by
        simp [countRun, hba]
      have hcr : countRun comp (l.drop start) =
          (ascExtend comp a (b :: rest) + 1, false) := by
        rw [hdrop]; exact hcr'
      have hk : (detectRun comp l start).2 = ascExtend comp a (b :: rest) + 1 := by
        simp [detectRun, hcr]
      have hd1 : (detectRun comp l start).1 = l := by
        simp [detectRun, hcr]
      have hflag : (countRun comp (a :: b :: rest)).2 = false := by
        simp [hcr']
      refine ⟨hd1, ?_, ?_⟩
      · rw [hk, hdrop]
        have hc0 := countRun_take_asc comp a (b :: rest) hflag
        rw [hcr'] at hc0
        simpa using hc0
      · intro d hlt
        rw [hk] at hlt ⊢
        have hae : ascExtend comp a (b :: rest) < (b :: rest).length := by
          simp only [List.length_cons]
          omega
        have hbd := ascExtend_boundary comp a (b :: rest) d hae
        rw [hdrop]
        simp only [Nat.add_sub_cancel, List.getD_cons_succ]
        exact hbd

theorem claim_C6_witness : 1 ≤ (detectRun natLt [3, 2, 2, 5] 0).2 :=
  (claim_C6 natLt [3, 2, 2, 5] 0 (by decide)).1

end Timsort
